import Mathlib

/-!
Verification development for the SweetExperiencesEngine achievement and
notification engine (src/src/SweetExperiencesEngine.c).

The C program is shallowly embedded: file contents are lists of characters,
C `int`/`time_t` fields are unbounded `Int` (integer overflow is outside the
model), the statically allocated ring buffer of 100 notification slots is a
function `Nat → Notification` together with `head`, `tail` and `count`
fields, and the effectful calls (IPC socket writes, stderr diagnostics,
audit-log appends, persistence saves) are recorded as an explicit list of
`Effect` values.  Each definition mirrors one function of the source file;
the source line numbers are given in the doc comments.
-/

namespace SweetExp

/-! ## Decimal digits, as printed by snprintf `%d` / `%ld` and read by sscanf -/

/-- Decimal digit characters, as produced by `snprintf` for `%d`/`%ld`. -/
def digitChar : Nat → Char
  | 0 => '0' | 1 => '1' | 2 => '2' | 3 => '3' | 4 => '4'
  | 5 => '5' | 6 => '6' | 7 => '7' | 8 => '8' | 9 => '9'
  | _ => '*'

/-- Numeric value of a decimal digit character (its code point minus 48). -/
def digitVal (c : Char) : Nat := c.toNat - 48

/-- Most-significant-first decimal digits of `n`; `fuel` bounds the recursion
(`fuel = n + 1` always suffices since a number has at most `n + 1` digits). -/
def natDigitsAux : Nat → Nat → List Char
  | 0, _ => []
  | fuel + 1, n =>
    if n < 10 then [digitChar n]
    else natDigitsAux fuel (n / 10) ++ [digitChar (n % 10)]

/-- Decimal digits of a natural number, most significant first. -/
def natDigits (n : Nat) : List Char := natDigitsAux (n + 1) n

/-- Decimal rendering of an integer, as `snprintf` prints `%d`/`%ld`. -/
def intToDecimal (i : Int) : List Char :=
  if i < 0 then '-' :: natDigits i.natAbs else natDigits i.toNat

/-- Whitespace characters skipped by the sscanf `%d`/`%ld` directives
(the C `isspace` set). -/
def isSpc (c : Char) : Bool :=
  c = ' ' || c = '\t' || c = '\n' || c = '\r' || c = '\x0b' || c = '\x0c'

/-- Greedily consume decimal digits, accumulating their value, exactly as the
digit-reading phase of sscanf `%d` does. -/
def scanNatAux : Nat → List Char → Nat × List Char
  | acc, [] => (acc, [])
  | acc, c :: cs =>
    if c.isDigit then scanNatAux (acc * 10 + digitVal c) cs else (acc, c :: cs)

/-- Model of one sscanf `%d` (or `%ld`) directive: skip whitespace, read an
optional sign, then at least one decimal digit; `none` is a matching failure. -/
def scanInt (cs : List Char) : Option (Int × List Char) :=
  match cs.dropWhile isSpc with
  | [] => none
  | c :: rest =>
    if c = '-' then
      match rest with
      | [] => none
      | d :: _ =>
        if d.isDigit then
          some (-((scanNatAux 0 rest).1 : Int), (scanNatAux 0 rest).2)
        else none
    else if c = '+' then
      match rest with
      | [] => none
      | d :: _ =>
        if d.isDigit then
          some (((scanNatAux 0 rest).1 : Int), (scanNatAux 0 rest).2)
        else none
    else if c.isDigit then
      some (((scanNatAux 0 (c :: rest)).1 : Int), (scanNatAux 0 (c :: rest)).2)
    else none

/-- Model of one sscanf `%N[^|]` directive: read at most `maxw` characters
other than `'|'`; reading zero characters is a matching failure. -/
def scanSet (maxw : Nat) (cs : List Char) : Option (List Char × List Char) :=
  let tk := (cs.takeWhile (fun c => c ≠ '|')).take maxw
  if tk.isEmpty then none else some (tk, cs.drop tk.length)

/-- Model of a literal `|` directive in an sscanf format string: the next
input character must be exactly `'|'`. -/
def expectBar : List Char → Option (List Char)
  | '|' :: rest => some rest
  | _ => none

/-! ## The Achievement record (source lines 37-45) -/

/-- The C `Achievement` struct (lines 37-45).  `unlocked` is a C `int`
(`0` is false, anything else is true), `unlock_time` a `time_t`. -/
structure Achievement where
  id : String
  name : String
  description : String
  progress : Int
  target : Int
  unlocked : Int
  unlock_time : Int
deriving DecidableEq, Repr

/-- An all-zero `Achievement`, the contents of every slot of the global
`engine.achievements` array at process start (`SweetEngine engine = {0}`,
line 74). -/
def zeroAch : Achievement := ⟨"", "", "", 0, 0, 0, 0⟩

/-- The fixed default catalog seeded by `load_engine_data` when it parses
zero records (lines 392-406).  Only id, name, description and target are
assigned; the remaining fields keep their zero-initialized values. -/
def default_catalog : List Achievement :=
  [⟨"boot_master", "Boot Master", "Boot 10 times successfully", 0, 10, 0, 0⟩,
   ⟨"wayland_pro", "Wayland Pro", "Process 500 Wayland events", 0, 500, 0, 0⟩]

/-! ## Persistence: save (lines 329-360) and load (lines 363-409) -/

/-- Record body written by `save_engine_data` for one achievement
(line 350): the seven fields joined by `'|'`, without the `"ACH:"` tag
and trailing newline. -/
def achBody (a : Achievement) : List Char :=
  a.id.toList ++ '|' :: a.name.toList ++ '|' :: a.description.toList ++
    '|' :: intToDecimal a.progress ++ '|' :: intToDecimal a.target ++
    '|' :: intToDecimal a.unlocked ++ '|' :: intToDecimal a.unlock_time

/-- One full record line of the store file, tag and newline included. -/
def serializeAch (a : Achievement) : List Char :=
  "ACH:".toList ++ achBody a ++ ['\n']

/-- The header line written by `save_engine_data` (line 343). -/
def headerL : List Char := "SWEETENGINE_DATA_v1".toList

/-- The complete store-file text produced by `save_engine_data`
(lines 342-354): header line, then one record line per achievement. -/
def serializeCatalog (cat : List Achievement) : List Char :=
  headerL ++ '\n' :: (cat.map serializeAch).flatten

/-- Model of `save_engine_data` (lines 329-360).  The function formats the
whole document into a 4096-byte stack buffer through a chain of `snprintf`
calls; a document of at most 4095 characters is written out intact.  Longer
documents overflow the buffer (`written` exceeds `sizeof(buffer)` and the
subsequent size argument wraps), which is undefined behaviour in C, so the
model returns `none` outside the 4095-character regime. -/
def save_engine_data (cat : List Achievement) : Option (List Char) :=
  let s := serializeCatalog cat
  if s.length ≤ 4095 then some s else none

/-- Model of the sscanf call of `load_engine_data` (lines 382-384), format
`"%31[^|]|%63[^|]|%127[^|]|%d|%d|%d|%ld"`.  Each directive commits its field
as soon as it matches; on the first matching failure the remaining fields
keep the values already in the destination slot (`prev`). -/
def parseACH (prev : Achievement) (s : List Char) : Achievement :=
  match scanSet 31 s with
  | none => prev
  | some (f1, r1) =>
  let a1 := { prev with id := String.mk f1 }
  match expectBar r1 with
  | none => a1
  | some r1' =>
  match scanSet 63 r1' with
  | none => a1
  | some (f2, r2) =>
  let a2 := { a1 with name := String.mk f2 }
  match expectBar r2 with
  | none => a2
  | some r2' =>
  match scanSet 127 r2' with
  | none => a2
  | some (f3, r3) =>
  let a3 := { a2 with description := String.mk f3 }
  match expectBar r3 with
  | none => a3
  | some r3' =>
  match scanInt r3' with
  | none => a3
  | some (v4, r4) =>
  let a4 := { a3 with progress := v4 }
  match expectBar r4 with
  | none => a4
  | some r4' =>
  match scanInt r4' with
  | none => a4
  | some (v5, r5) =>
  let a5 := { a4 with target := v5 }
  match expectBar r5 with
  | none => a5
  | some r5' =>
  match scanInt r5' with
  | none => a5
  | some (v6, r6) =>
  let a6 := { a5 with unlocked := v6 }
  match expectBar r6 with
  | none => a6
  | some r6' =>
  match scanInt r6' with
  | none => a6
  | some (v7, _) => { a6 with unlock_time := v7 }

/-- Raw `strtok(buffer, "\n")` tokenization before discarding empties:
split at every newline, keeping the (possibly empty) pieces. -/
def splitRaw : List Char → List (List Char)
  | [] => []
  | c :: cs =>
    if c = '\n' then [] :: splitRaw cs
    else
      match splitRaw cs with
      | [] => [[c]]
      | t :: ts => (c :: t) :: ts

/-- The token sequence produced by repeated `strtok(_, "\n")` calls
(lines 375-388): maximal nonempty runs of non-newline characters. -/
def splitLines (cs : List Char) : List (List Char) :=
  (splitRaw cs).filter (fun l => ¬l.isEmpty)

/-- The record-reading loop of `load_engine_data` (lines 379-389): lines
beginning with `"ACH:"` each fill the next achievement slot — the slot is
consumed whether or not sscanf matches every field — other lines are
ignored; the loop stops after `MAX_ACHIEVEMENTS = 50` records.  At startup
(the single call site, line 456) every slot holds `zeroAch`. -/
def parseLoop : List (List Char) → Nat → List Achievement
  | [], _ => []
  | l :: ls, n =>
    if n < 50 then
      if l.take 4 = "ACH:".toList then
        parseACH zeroAch (l.drop 4) :: parseLoop ls (n + 1)
      else parseLoop ls n
    else []

/-- Model of `load_engine_data` (lines 363-409).  `none` input means the
store file could not be opened; `read` returns at most 4095 bytes.  On open
failure or an empty file the function returns `-1` (modelled as `none`)
before touching the catalog — in particular before the default-seeding
block — so the caller keeps its previous (at startup: empty) catalog.
Only when at least one byte was read does it parse records and, if zero
records were parsed, seed `default_catalog`. -/
def load_engine_data (file : Option (List Char)) : Option (List Achievement) :=
  match file with
  | none => none
  | some cs =>
    if cs.isEmpty then none
    else
      let recs := parseLoop (splitLines (cs.take 4095)) 0
      if recs.isEmpty then some default_catalog else some recs

/-! ## Configuration loading (lines 94-117) -/

/-- Substring test, as C `strstr` (true when `pat` occurs inside `l`). -/
def hasSub (pat l : List Char) : Bool :=
  (List.range (l.length + 1)).any (fun i => (l.drop i).take pat.length = pat)

/-- Model of `load_config` (lines 94-117) acting on the `engine.enabled`
flag.  `none` input means the INI file could not be opened.  The function
scans the file for a line containing `"SWEETENGINE=true"`; when found it
assigns `engine.enabled = 1`, otherwise it merely returns 0 and leaves the
flag exactly as it was — there is no assignment of 0 anywhere in it. -/
def load_config (file : Option (List Char)) (prev : Bool) : Bool :=
  match file with
  | none => prev
  | some s =>
    if (splitLines s).any (fun l => hasSub "SWEETENGINE=true".toList l) then true
    else prev

/-- The config-watching main loop (lines 473-479): each observed change of
the INI file triggers one `load_config` call against the current flag. -/
def config_reload_loop (files : List (Option (List Char))) (e : Bool) : Bool :=
  files.foldl (fun acc f => load_config f acc) e

/-! ## Notifications and the ring-buffer queue (lines 47-53, 67-70) -/

/-- The C `Notification` struct (lines 48-53). -/
structure Notification where
  message : String
  type : String
  timestamp : Int
  priority : Int
deriving DecidableEq, Repr

/-- The notification ring buffer of the engine state (lines 67-70):
100 statically allocated slots plus `head`, `tail` and `count`. -/
structure QueueState where
  buf : Nat → Notification
  head : Nat
  tail : Nat
  count : Nat

/-- The queue at process start: zeroed slots, `head = tail = count = 0`. -/
def emptyQ : QueueState := ⟨fun _ => ⟨"", "", 0, 0⟩, 0, 0, 0⟩

/-- The enqueue operation performed by the producer (lines 288-296): the
guard is `notification_count < MAX_NOTIFICATIONS - 1`, i.e. `count < 99`;
when it fails the new item is dropped and nothing changes.  Returns the
updated queue and whether the item was accepted. -/
def queue_push (n : Notification) (q : QueueState) : QueueState × Bool :=
  if q.count < 99 then
    ({ buf := fun j => if j = q.tail then n else q.buf j,
       head := q.head,
       tail := (q.tail + 1) % 100,
       count := q.count + 1 }, true)
  else (q, false)

/-- The dequeue operation of the dispatcher (lines 260-265): when
`head ≠ tail` it copies the slot at `head`, advances `head` modulo 100 and
decrements `count`; otherwise it does nothing. -/
def queue_pop (q : QueueState) : QueueState × Option Notification :=
  if q.head = q.tail then (q, none)
  else ({ q with head := (q.head + 1) % 100, count := q.count - 1 },
        some (q.buf q.head))

/-- Structural invariant of the ring buffer: `head` in range, `tail`
determined by `head + count`, and at most 99 items (one slot is always kept
free so that `head = tail` uniquely means empty). -/
def Inv (q : QueueState) : Prop :=
  q.head < 100 ∧ q.tail = (q.head + q.count) % 100 ∧ q.count ≤ 99

/-- Abstraction of the ring buffer to the list of queued notifications,
oldest first. -/
def absQ (q : QueueState) : List Notification :=
  (List.range q.count).map (fun i => q.buf ((q.head + i) % 100))

/-- A single queue operation: one producer enqueue or one dispatcher
dequeue. -/
inductive QOp
  | push (n : Notification)
  | pop

/-- Run a sequence of queue operations, collecting the dequeued items in
order. -/
def runQ : List QOp → QueueState → QueueState × List Notification
  | [], q => (q, [])
  | .push n :: ops, q => runQ ops (queue_push n q).1
  | .pop :: ops, q =>
    match queue_pop q with
    | (q', some n) =>
      match runQ ops q' with
      | (q'', out) => (q'', n :: out)
    | (q', none) => runQ ops q'

/-- Specification-level queue: a plain list, oldest first, with the same
drop-when-99-items policy. -/
def specPush (n : Notification) (l : List Notification) : List Notification :=
  if l.length < 99 then l ++ [n] else l

/-- Specification-level run: the list contents and the dequeued items of a
queue-operation sequence. -/
def runSpec : List QOp → List Notification → List Notification × List Notification
  | [], l => (l, [])
  | .push n :: ops, l => runSpec ops (specPush n l)
  | .pop :: ops, l =>
    match l with
    | [] => runSpec ops []
    | x :: xs =>
      match runSpec ops xs with
      | (l', out) => (l', x :: out)

/-- Drain the queue by repeated `queue_pop`, at most `count` times. -/
def popAllAux : Nat → QueueState → List Notification
  | 0, _ => []
  | f + 1, q =>
    match queue_pop q with
    | (q', some n) => n :: popAllAux f q'
    | (_, none) => []

/-- Pop everything currently queued, in order. -/
def popAll (q : QueueState) : List Notification := popAllAux q.count q

/-! ## Effects and the engine state machine -/

/-- Observable side effects of the engine: a message written to the
NotifEngine socket (`send_notification`, lines 151-169), a diagnostic on
stderr, an audit line appended by `log_engine_event` (lines 412-422), and a
call to `save_engine_data`. -/
inductive Effect
  | ipc (type message : String) (priority : Int) (timestamp : Int)
  | stderrLine (s : String)
  | logLine (s : String)
  | saveCall
deriving DecidableEq, Repr

/-- Model of `send_notification` (lines 151-169): when the consumer socket
is reachable the JSON-encoded message is written (timestamp taken at send
time); otherwise the connection fails, a diagnostic goes to stderr and -1
is returned.  Either way there is no retry. -/
def sendEffects (up : Bool) (message type_ : String) (priority now : Int) :
    List Effect :=
  if up then [.ipc type_ message priority now]
  else [.stderrLine "SweetEngine: Failed to connect to NotifEngine"]

/-- The unlock banner built at lines 226-230 (a trophy glyph, the name and
the description; `snprintf` caps it at 255 characters). -/
def unlock_message (a : Achievement) : String :=
  (((Char.ofNat 127942).toString ++ " Achievement Unlocked: " ++ a.name ++ "!\n")
      ++ a.description).take 255

/-- The loop body of `unlock_achievement` (lines 217-238): find the first
record whose id matches and whose `unlocked` field is zero; set
`unlocked = 1` and `unlock_time = now`, send one achievement notification,
append one audit line, call save, and stop.  If no record qualifies the
catalog and the effect trace are untouched. -/
def unlockList (id : String) (now : Int) (up : Bool) :
    List Achievement → List Achievement × List Effect
  | [] => ([], [])
  | a :: rest =>
    if a.id = id ∧ a.unlocked = 0 then
      let a' := { a with unlocked := 1, unlock_time := now }
      (a' :: rest,
        sendEffects up (unlock_message a') "achievement" 5 now ++
          [.logLine "Achievement unlocked", .saveCall])
    else
      match unlockList id now up rest with
      | (rest', es) => (a :: rest', es)

/-- One of the two scanning loops of `check_achievement_progress`
(lines 198-204 and 207-213): walk the indices of the current catalog; at
every index whose record matches `id`, has its driving counter at or past
`target` and is still locked, call `unlock_achievement id`.  `fuel` bounds
the recursion (the catalog length never changes, so `cat.length` suffices). -/
def checkLoopAux (id : String) (counter now : Int) (up : Bool) :
    Nat → Nat → List Achievement → List Achievement × List Effect
  | 0, _, cat => (cat, [])
  | fuel + 1, i, cat =>
    match cat[i]? with
    | none => (cat, [])
    | some a =>
      if a.id = id ∧ counter ≥ a.target ∧ a.unlocked = 0 then
        match unlockList id now up cat with
        | (cat1, es1) =>
          match checkLoopAux id counter now up fuel (i + 1) cat1 with
          | (cat2, es2) => (cat2, es1 ++ es2)
      else checkLoopAux id counter now up fuel (i + 1) cat

/-- One full scanning loop over the catalog. -/
def checkLoop (id : String) (counter now : Int) (up : Bool)
    (cat : List Achievement) : List Achievement × List Effect :=
  checkLoopAux id counter now up cat.length 0 cat

/-- The global engine state relevant to the claims: the achievement catalog
and notification queue of `SweetEngine` (lines 56-71) together with the
static counters `boot_count` and `wayland_events` of
`check_achievement_progress` (lines 193-194) and `event_count` of
`wayland_event_listener` (line 280). -/
structure EngState where
  achievements : List Achievement
  boot_count : Int
  wayland_events : Int
  queue : QueueState
  event_count : Int

/-- Model of `check_achievement_progress` (lines 191-214): increment the
static `boot_count`, scan for `boot_master` against it, then scan for
`wayland_pro` against the static `wayland_events` — which no statement of
the program ever increments. -/
def check_achievement_progress (now : Int) (up : Bool) (s : EngState) :
    EngState × List Effect :=
  let bc := s.boot_count + 1
  match checkLoop "boot_master" bc now up s.achievements with
  | (cat1, es1) =>
    match checkLoop "wayland_pro" s.wayland_events now up cat1 with
    | (cat2, es2) =>
      ({ s with boot_count := bc, achievements := cat2 }, es1 ++ es2)

/-- The ten ambient messages of `generate_random_notification`
(lines 173-184). -/
def random_msgs : List String :=
  ["You're crushing it today!",
   "Smooth boot sequence detected",
   "System purring like a kitten",
   "Achievement streak active",
   "Lumen OS loves you back",
   "Battery optimization master",
   "Kernel threads dancing happily",
   "Wayland compositor flexing",
   "Memory pressure minimal",
   "You're a system wizard"]

/-- One observable step of the running engine:
`evalTick` is one execution of the evaluator body (taken periodically by
`achievement_monitor_thread`, lines 244-249, and on each inotify event by
`kernel_hook_listener`, lines 314-321); `dispatchTick` is one iteration of
`notification_dispatcher_thread` (lines 257-274), with `ambient = some k`
when the 5% coin flip fires; `listenerStep` is one iteration of
`wayland_event_listener` (lines 281-301) with `r` the pseudo-random
increment; `unlockCall` is a direct `unlock_achievement` attempt.
`now` is the current wall-clock time, `up` whether the NotifEngine consumer
socket is reachable. -/
inductive SysOp
  | evalTick (now : Int) (up : Bool)
  | dispatchTick (up : Bool) (ambient : Option Nat) (now : Int)
  | listenerStep (r now : Int)
  | unlockCall (id : String) (now : Int) (up : Bool)

/-- The time argument an operation would stamp into `unlock_time`. -/
def opTime : SysOp → Int
  | .evalTick now _ => now
  | .dispatchTick _ _ now => now
  | .listenerStep _ now => now
  | .unlockCall _ now _ => now

/-- Transition function of the engine state machine. -/
def stepOp (op : SysOp) (s : EngState) : EngState × List Effect :=
  match op with
  | .evalTick now up => check_achievement_progress now up s
  | .dispatchTick up amb now =>
    match queue_pop s.queue with
    | (q, popped) =>
      let es :=
        match popped with
        | some n => sendEffects up n.message n.type n.priority now
        | none => []
      let es2 :=
        match amb with
        | some k => sendEffects up (random_msgs.getD (k % 10) "") "random" 2 now
        | none => []
      ({ s with queue := q }, es ++ es2)
  | .listenerStep r now =>
    let ec := s.event_count + r
    if ec % 50 = 0 then
      let n : Notification :=
        ⟨("Wayland events: " ++ String.mk (intToDecimal ec) ++ " processed").take 255,
         "system", now, 1⟩
      ({ s with event_count := ec, queue := (queue_push n s.queue).1 }, [])
    else ({ s with event_count := ec }, [])
  | .unlockCall id now up =>
    match unlockList id now up s.achievements with
    | (cat, es) => ({ s with achievements := cat }, es)

/-- Run a sequence of engine operations, keeping only the final state. -/
def runOps (ops : List SysOp) (s : EngState) : EngState :=
  ops.foldl (fun t op => (stepOp op t).1) s

/-- All states visited while running `ops` from `s`, the start state
included. -/
def statesFrom (s : EngState) : List SysOp → List EngState
  | [] => [s]
  | op :: ops => s :: statesFrom (stepOp op s).1 ops

/-- Whether the achievement at index `i` is currently unlocked (a C `int`
is true when nonzero). -/
def unlockedAt (s : EngState) (i : Nat) : Bool :=
  match s.achievements[i]? with
  | some a => a.unlocked != 0
  | none => false

/-- Pointwise relation between two achievement catalogs: every slot is
either unchanged or has undergone exactly the unlock transition (a locked
record made unlocked with `unlock_time` stamped `now`). -/
def PtStep (now : Int) (c1 c2 : List Achievement) : Prop :=
  ∀ j : Nat, c2[j]? = c1[j]? ∨
    ∃ a, c1[j]? = some a ∧ a.unlocked = 0 ∧
      c2[j]? = some { a with unlocked := 1, unlock_time := now }

/-- Number of false-to-true transitions between adjacent entries of a
boolean trace. -/
def riseCount : List Bool → Nat
  | [] => 0
  | [_] => 0
  | a :: b :: t => (if a = false ∧ b = true then 1 else 0) + riseCount (b :: t)

/-! ## Auxiliary forms and concrete states used in the statements below -/

/-- A record line of the store file without its trailing newline. -/
def achLine (a : Achievement) : List Char := "ACH:".toList ++ achBody a

/-- A text field that survives serialization: nonempty (sscanf scansets
must match at least one character), short enough for its struct array, and
free of the field delimiter and of newlines. -/
def GoodText (s : String) (maxlen : Nat) : Prop :=
  s ≠ "" ∧ s.length ≤ maxlen ∧ ∀ c ∈ s.toList, c ≠ '|' ∧ c ≠ '\n'

/-- An achievement whose three text fields all survive serialization
(`id` fits `char[32]`, `name` `char[64]`, `description` `char[128]`). -/
def GoodAch (a : Achievement) : Prop :=
  GoodText a.id 31 ∧ GoodText a.name 63 ∧ GoodText a.description 127

/-- A boot-count achievement with target 1, used as a concrete input. -/
def bootAch1 : Achievement :=
  ⟨"boot_master", "Boot Master", "Boot 10 times successfully", 0, 1, 0, 0⟩

/-- Engine state holding only `bootAch1`, its counter one tick from the
target. -/
def s6 : EngState := ⟨[bootAch1], 0, 0, emptyQ, 0⟩

/-- A single already-unlocked achievement, used as a concrete input. -/
def aW : Achievement := ⟨"x", "n", "d", 0, 5, 1, 42⟩

/-- Engine state holding only the unlocked `aW`. -/
def sW : EngState := ⟨[aW], 0, 0, emptyQ, 0⟩

/-- A queue holding exactly one concrete notification. -/
def qW : QueueState := (queue_push ⟨"hello", "system", 3, 1⟩ emptyQ).1

/-- Engine state whose queue is `qW`. -/
def s9 : EngState := ⟨[], 0, 0, qW, 0⟩

/-- 101 distinct concrete notifications. -/
def ns101 : List Notification :=
  (List.range 101).map (fun k => ⟨String.mk (natDigits k), "system", 0, 1⟩)

/-- 101 distinct concrete push operations. -/
def pushOps101 : List QOp := ns101.map QOp.push

/-- A store file with two well-formed record lines around one malformed
line that still carries the `"ACH:"` tag. -/
def c7file : List Char :=
  ("SWEETENGINE_DATA_v1\nACH:alpha|Alpha|First one|1|2|0|0\nACH:badline\n"
    ++ "ACH:beta|Beta|Second one|3|4|0|0\n").toList

/-! ## Lemmas: decimal printing and scanning invert each other -/

theorem mk_toList (s : String) : String.mk s.toList = s := by cases s; rfl

theorem toList_ne_nil {s : String} (h : s ≠ "") : s.toList ≠ [] := by
  intro hn
  have hm := mk_toList s
  rw [hn] at hm
  exact h hm.symm

theorem digitChar_isDigit {k : Nat} (h : k < 10) : (digitChar k).isDigit = true := by
  interval_cases k <;> decide

theorem digitVal_digitChar {k : Nat} (h : k < 10) : digitVal (digitChar k) = k := by
  interval_cases k <;> decide

theorem natDigitsAux_all_digit :
    ∀ fuel n, ∀ c ∈ natDigitsAux fuel n, c.isDigit = true := by
  intro fuel
  induction fuel with
  | zero => intro n c hc; simp [natDigitsAux] at hc
  | succ f ih =>
    intro n c hc
    by_cases h : n < 10
    · simp [natDigitsAux, h] at hc
      subst hc
      exact digitChar_isDigit h
    · simp [natDigitsAux, h] at hc
      rcases hc with hc | hc
      · exact ih _ c hc
      · subst hc
        exact digitChar_isDigit (Nat.mod_lt _ (by norm_num))

theorem natDigitsAux_ne_nil {fuel n : Nat} (h : n < fuel) :
    natDigitsAux fuel n ≠ [] := by
  cases fuel with
  | zero => omega
  | succ f =>
    by_cases h10 : n < 10
    · simp [natDigitsAux, h10]
    · simp [natDigitsAux, h10]

theorem natDigits_cons (n : Nat) :
    ∃ c cs, natDigits n = c :: cs ∧ c.isDigit = true := by
  cases h : natDigits n with
  | nil => exact absurd h (natDigitsAux_ne_nil (Nat.lt_succ_self n))
  | cons c cs =>
    refine ⟨c, cs, rfl, ?_⟩
    exact natDigitsAux_all_digit (n + 1) n c (by rw [natDigits] at h; rw [h]; simp)

theorem isDigit_not_spc {c : Char} (h : c.isDigit = true) : isSpc c = false := by
  by_contra hc
  have hc' : isSpc c = true := by simpa using hc
  simp only [isSpc, Bool.or_eq_true, decide_eq_true_eq] at hc'
  rcases hc' with ((((h1 | h1) | h1) | h1) | h1) | h1 <;>
    (subst h1; exact absurd h (by decide))

theorem dropWhile_not_spc {c : Char} (hsp : isSpc c = false) (l : List Char) :
    (c :: l).dropWhile isSpc = c :: l := by
  rw [List.dropWhile_cons, hsp]
  simp

theorem isDigit_ne_dash {c : Char} (h : c.isDigit = true) : c ≠ '-' := by
  intro hc
  subst hc
  exact absurd h (by decide)

theorem isDigit_ne_plus {c : Char} (h : c.isDigit = true) : c ≠ '+' := by
  intro hc
  subst hc
  exact absurd h (by decide)

theorem scanNatAux_stop (acc : Nat) (rest : List Char)
    (h : ∀ c, rest.head? = some c → c.isDigit = false) :
    scanNatAux acc rest = (acc, rest) := by
  cases rest with
  | nil => rfl
  | cons c cs => simp [scanNatAux, h c rfl]

theorem scanNatAux_append :
    ∀ fuel n, n < fuel → ∀ acc rest,
      scanNatAux acc (natDigitsAux fuel n ++ rest) =
        scanNatAux (acc * 10 ^ (natDigitsAux fuel n).length + n) rest := by
  intro fuel
  induction fuel with
  | zero => intro n h; omega
  | succ f ih =>
    intro n h acc rest
    by_cases h10 : n < 10
    · simp [natDigitsAux, h10, scanNatAux, digitChar_isDigit h10,
        digitVal_digitChar h10]
    · have hdiv : n / 10 < f := by
        have hlt : n / 10 < n := Nat.div_lt_self (by omega) (by norm_num)
        omega
      have hmod : n % 10 < 10 := Nat.mod_lt _ (by norm_num)
      simp only [natDigitsAux, if_neg h10]
      rw [List.append_assoc]
      rw [ih (n / 10) hdiv acc ([digitChar (n % 10)] ++ rest)]
      simp only [List.singleton_append, scanNatAux, digitChar_isDigit hmod,
        if_pos, digitVal_digitChar hmod, List.length_append, List.length_singleton]
      have hdm : 10 * (n / 10) + n % 10 = n := Nat.div_add_mod n 10
      have key : (acc * 10 ^ (natDigitsAux f (n / 10)).length + n / 10) * 10 + n % 10 =
          acc * 10 ^ ((natDigitsAux f (n / 10)).length + 1) + n := by
        rw [pow_succ]
        nlinarith [hdm]
      rw [key]
      rfl

theorem scanNatAux_natDigits (n acc : Nat) (rest : List Char) :
    scanNatAux acc (natDigits n ++ rest) =
      scanNatAux (acc * 10 ^ (natDigits n).length + n) rest := by
  rw [natDigits]
  exact scanNatAux_append (n + 1) n (Nat.lt_succ_self n) acc rest

theorem scanInt_intToDecimal (i : Int) (rest : List Char)
    (h : ∀ c, rest.head? = some c → c.isDigit = false) :
    scanInt (intToDecimal i ++ rest) = some (i, rest) := by
  by_cases hneg : i < 0
  · obtain ⟨c, cs, hEq, hc⟩ := natDigits_cons i.natAbs
    have hstep : intToDecimal i ++ rest = '-' :: (c :: cs ++ rest) := by
      simp [intToDecimal, hneg, hEq]
    have hsp : isSpc '-' = false := by decide
    have hl : c :: (cs ++ rest) = natDigits i.natAbs ++ rest := by
      rw [hEq, List.cons_append]
    have hscan : scanNatAux 0 (c :: (cs ++ rest)) = (i.natAbs, rest) := by
      rw [hl, scanNatAux_natDigits, Nat.zero_mul, Nat.zero_add, scanNatAux_stop _ _ h]
    have hval : -((i.natAbs : Int)) = i := by omega
    rw [hstep]
    simp [scanInt, dropWhile_not_spc hsp, hc, hscan, hval]
    rw [abs_of_neg hneg, neg_neg]
  · obtain ⟨c, cs, hEq, hc⟩ := natDigits_cons i.toNat
    have hstep : intToDecimal i ++ rest = c :: cs ++ rest := by
      simp [intToDecimal, hneg, hEq]
    have hl : c :: (cs ++ rest) = natDigits i.toNat ++ rest := by
      rw [hEq, List.cons_append]
    have hscan : scanNatAux 0 (c :: (cs ++ rest)) = (i.toNat, rest) := by
      rw [hl, scanNatAux_natDigits, Nat.zero_mul, Nat.zero_add, scanNatAux_stop _ _ h]
    have hval : ((i.toNat : Int)) = i := by omega
    rw [hstep]
    simp [scanInt, dropWhile_not_spc (isDigit_not_spc hc),
      isDigit_ne_dash hc, isDigit_ne_plus hc, hc, hscan, hval]

theorem scanInt_intToDecimal_nil (i : Int) :
    scanInt (intToDecimal i) = some (i, []) := by
  have := scanInt_intToDecimal i [] (by intro c hc; simp at hc)
  simpa using this

theorem takeWhile_all_append (p : Char → Bool) :
    ∀ l : List Char, (∀ c ∈ l, p c = true) → ∀ x, p x = false → ∀ rest,
      (l ++ x :: rest).takeWhile p = l := by
  intro l
  induction l with
  | nil =>
    intro _ x hx rest
    simp [List.takeWhile_cons, hx]
  | cons a as ih =>
    intro hall x hx rest
    have ha : p a = true := hall a (by simp)
    simp only [List.cons_append, List.takeWhile_cons, ha, if_true]
    rw [ih (fun c hc => hall c (by simp [hc])) x hx rest]

theorem scanSet_exact {l : List Char} {maxw : Nat} (h1 : l ≠ []) (h2 : l.length ≤ maxw)
    (h3 : ∀ c ∈ l, c ≠ '|') (rest : List Char) :
    scanSet maxw (l ++ '|' :: rest) = some (l, '|' :: rest) := by
  have htw : (l ++ '|' :: rest).takeWhile (fun c => c ≠ '|') = l := by
    apply takeWhile_all_append
    · intro c hc
      simp [h3 c hc]
    · simp
  simp only [scanSet, htw, List.take_of_length_le h2]
  have hne : l.isEmpty = false := by
    cases l with
    | nil => exact absurd rfl h1
    | cons a as => rfl
  simp only [hne, Bool.false_eq_true, if_false, List.drop_left]

theorem expectBar_cons (rest : List Char) : expectBar ('|' :: rest) = some rest := rfl

theorem parseACH_achBody {a : Achievement} (h : GoodAch a) :
    parseACH zeroAch (achBody a) = a := by
  obtain ⟨i0, n0, d0, p0, t0, u0, ut0⟩ := a
  obtain ⟨⟨hid1, hid2, hid3⟩, ⟨hn1, hn2, hn3⟩, ⟨hd1, hd2, hd3⟩⟩ := h
  have hbar : ∀ c : Char, ('|' :: ([] : List Char)).head? = some c → c.isDigit = false := by
    intro c hc
    simp at hc
    subst hc
    decide
  have hbar' : ∀ (r : List Char) (c : Char),
      ('|' :: r).head? = some c → c.isDigit = false := by
    intro r c hc
    simp at hc
    subst hc
    decide
  simp only [achBody] at *
  unfold parseACH
  simp only [List.cons_append, List.append_assoc]
  rw [scanSet_exact (toList_ne_nil hid1) hid2 (fun c hc => (hid3 c hc).1)]
  simp only [expectBar_cons]
  rw [scanSet_exact (toList_ne_nil hn1) hn2 (fun c hc => (hn3 c hc).1)]
  simp only [expectBar_cons]
  rw [scanSet_exact (toList_ne_nil hd1) hd2 (fun c hc => (hd3 c hc).1)]
  simp only [expectBar_cons]
  rw [scanInt_intToDecimal p0 _ (hbar' _)]
  simp only [expectBar_cons]
  rw [scanInt_intToDecimal t0 _ (hbar' _)]
  simp only [expectBar_cons]
  rw [scanInt_intToDecimal u0 _ (hbar' _)]
  simp only [expectBar_cons]
  rw [scanInt_intToDecimal_nil ut0]
  simp [mk_toList]

/-! ## Lemmas: line splitting and whole-file round trip -/

theorem splitRaw_newline_cons (s : List Char) :
    splitRaw ('\n' :: s) = [] :: splitRaw s := by
  simp [splitRaw]

theorem splitRaw_cons_ne {a : Char} (ha : a ≠ '\n') (t : List Char) :
    splitRaw (a :: t) =
      match splitRaw t with
      | [] => [[a]]
      | x :: xs => (a :: x) :: xs := by
  simp [splitRaw, ha]

theorem splitRaw_append (l : List Char) (hne : l ≠ []) (hnl : ∀ c ∈ l, c ≠ '\n')
    (s : List Char) : splitRaw (l ++ '\n' :: s) = l :: splitRaw s := by
  induction l with
  | nil => exact absurd rfl hne
  | cons a as ih =>
    have ha : a ≠ '\n' := hnl a (by simp)
    cases as with
    | nil => simp [splitRaw, ha, splitRaw_newline_cons]
    | cons b bs =>
      have hr := ih (by simp) (fun c hc => hnl c (by simp [hc]))
      simp only [List.cons_append] at hr ⊢
      rw [splitRaw_cons_ne ha, hr]

theorem splitLines_append (l : List Char) (hne : l ≠ []) (hnl : ∀ c ∈ l, c ≠ '\n')
    (s : List Char) : splitLines (l ++ '\n' :: s) = l :: splitLines s := by
  have hE : l.isEmpty = false := by
    cases l with
    | nil => exact absurd rfl hne
    | cons a as => rfl
  unfold splitLines
  rw [splitRaw_append l hne hnl s]
  simp [List.filter_cons, hE]
  exact hne

theorem digit_ne_newline {c : Char} (h : c.isDigit = true) : c ≠ '\n' := by
  intro hc
  subst hc
  exact absurd h (by decide)

theorem all_intToDecimal {P : Char → Prop} (hdash : P '-')
    (hdig : ∀ c, c.isDigit = true → P c) (i : Int) :
    ∀ c ∈ intToDecimal i, P c := by
  intro c hc
  unfold intToDecimal at hc
  split at hc
  · rcases List.mem_cons.mp hc with rfl | hmem
    · exact hdash
    · exact hdig c (natDigitsAux_all_digit _ _ c hmem)
  · exact hdig c (natDigitsAux_all_digit _ _ c hc)

theorem all_achBody {P : Char → Prop} {a : Achievement} (hbar : P '|') (hdash : P '-')
    (hdig : ∀ c, c.isDigit = true → P c)
    (hid : ∀ c ∈ a.id.toList, P c) (hnm : ∀ c ∈ a.name.toList, P c)
    (hde : ∀ c ∈ a.description.toList, P c) :
    ∀ c ∈ achBody a, P c := by
  have hnum := all_intToDecimal (P := P) hdash hdig
  simp only [achBody, List.forall_mem_append, List.forall_mem_cons, and_assoc]
  exact ⟨hid, hbar, hnm, hbar, hde, hbar, hnum _, hbar, hnum _, hbar, hnum _, hbar, hnum _⟩

theorem achLine_shape (a : Achievement) :
    achLine a = 'A' :: 'C' :: 'H' :: ':' :: achBody a := rfl

theorem achLine_no_newline {a : Achievement} (h : GoodAch a) :
    ∀ c ∈ achLine a, c ≠ '\n' := by
  obtain ⟨⟨_, _, hid3⟩, ⟨_, _, hn3⟩, ⟨_, _, hd3⟩⟩ := h
  have hbody : ∀ c ∈ achBody a, c ≠ '\n' :=
    all_achBody (by decide) (by decide) (fun c hc => digit_ne_newline hc)
      (fun c hc => (hid3 c hc).2) (fun c hc => (hn3 c hc).2) (fun c hc => (hd3 c hc).2)
  rw [achLine_shape]
  simp only [List.forall_mem_cons]
  exact ⟨by decide, by decide, by decide, by decide, hbody⟩

theorem splitLines_flatten {cat : List Achievement} (h : ∀ a ∈ cat, GoodAch a) :
    splitLines ((cat.map serializeAch).flatten) = cat.map achLine := by
  induction cat with
  | nil => rfl
  | cons a as ih =>
    have hgood := h a (by simp)
    have hshape : (serializeAch a :: as.map serializeAch).flatten =
        achLine a ++ '\n' :: (as.map serializeAch).flatten := by
      simp [serializeAch, achLine, List.append_assoc]
    simp only [List.map_cons, hshape]
    rw [splitLines_append (achLine a) (by rw [achLine_shape]; simp)
      (achLine_no_newline hgood)]
    rw [ih (fun b hb => h b (by simp [hb]))]

theorem splitLines_serializeCatalog {cat : List Achievement}
    (h : ∀ a ∈ cat, GoodAch a) :
    splitLines (serializeCatalog cat) = headerL :: cat.map achLine := by
  unfold serializeCatalog
  rw [splitLines_append headerL (by decide) (by decide)]
  rw [splitLines_flatten h]

theorem parseLoop_map {cats : List Achievement} :
    ∀ n, n + cats.length ≤ 50 → (∀ a ∈ cats, GoodAch a) →
      parseLoop (cats.map achLine) n = cats := by
  induction cats with
  | nil => intro n _ _; rfl
  | cons a as ih =>
    intro n hlen hgood
    have hn : n < 50 := by
      simp only [List.length_cons] at hlen
      omega
    have htake : (achLine a).take 4 = "ACH:".toList := by
      rw [achLine, show (4 : Nat) = "ACH:".toList.length from rfl, List.take_left]
    have hdrop : (achLine a).drop 4 = achBody a := by
      rw [achLine, show (4 : Nat) = "ACH:".toList.length from rfl, List.drop_left]
    simp only [List.map_cons, parseLoop, hn, if_true, htake, if_pos rfl, hdrop]
    rw [parseACH_achBody (hgood a (by simp))]
    rw [ih (n + 1) (by simp only [List.length_cons] at hlen; omega)
      (fun b hb => hgood b (by simp [hb]))]

theorem parseLoop_length_le : ∀ (ls : List (List Char)) (n : Nat),
    (parseLoop ls n).length ≤ 50 - n := by
  intro ls
  induction ls with
  | nil => intro n; simp [parseLoop]
  | cons l ls ih =>
    intro n
    by_cases hn : n < 50
    · by_cases hA : l.take 4 = "ACH:".toList
      · have := ih (n + 1)
        simp only [parseLoop, hn, if_true, hA, List.length_cons]
        omega
      · simp only [parseLoop, hn, if_true, hA, if_false]
        exact ih n
    · simp [parseLoop, hn]

theorem parseLoop_skip (bad : List Char) (hbad : ¬bad.take 4 = "ACH:".toList) :
    ∀ (ls1 ls2 : List (List Char)) (n : Nat),
      parseLoop (ls1 ++ bad :: ls2) n = parseLoop (ls1 ++ ls2) n := by
  intro ls1
  have hbad' : ¬bad.take 4 = ['A', 'C', 'H', ':'] := by
    intro hx
    exact hbad (by rw [hx]; rfl)
  induction ls1 with
  | nil =>
    intro ls2 n
    by_cases hn : n < 50
    · simp [parseLoop, hn, hbad, hbad']
    · cases ls2 <;> simp [parseLoop, hn]
  | cons l ls ih =>
    intro ls2 n
    by_cases hn : n < 50
    · by_cases hA : l.take 4 = "ACH:".toList
      · simp [parseLoop, hn, hA, ih]
      · simp [parseLoop, hn, hA, ih]
    · simp [parseLoop, hn]

theorem load_length_le (file : List Char) (cat : List Achievement)
    (h : load_engine_data (some file) = some cat) : cat.length ≤ 50 := by
  by_cases hE : file.isEmpty
  · simp [load_engine_data, hE] at h
  · simp only [load_engine_data, hE, Bool.false_eq_true, if_false] at h
    by_cases hR : (parseLoop (splitLines (file.take 4095)) 0).isEmpty
    · rw [if_pos hR] at h
      cases h
      decide
    · rw [if_neg hR] at h
      cases h
      have := parseLoop_length_le (splitLines (file.take 4095)) 0
      omega

/-! ## Claim C2 -/

/-- Claim C2 (code bug): when the store file is missing, unreadable or
empty, `load_engine_data` returns the error value before ever reaching its
default-seeding block, so the catalog stays empty and the two default
achievements are NOT seeded, contrary to the claim.  (The third conjunct
shows the seeding block is reachable only for a readable, nonempty file
that contains no record lines.)  Startup is indeed not aborted — the caller
ignores the return value — but the engine then holds zero achievements. -/
theorem load_missing_or_empty_skips_seeding :
    load_engine_data none = none ∧
    load_engine_data (some []) = none ∧
    load_engine_data (some (headerL ++ ['\n'])) = some default_catalog := by
  refine ⟨rfl, rfl, ?_⟩
  rfl

/-! ## Claim C3 -/

/-- Claim C3 counterexample: the round trip already fails for the empty
catalog (0 records, allowed by the claim): saving writes only the header,
and loading a record-free file seeds the two-entry default catalog instead
of reproducing the empty one. -/
theorem roundtrip_fails_on_empty_catalog :
    save_engine_data ([] : List Achievement) = some (serializeCatalog []) ∧
    load_engine_data (some (serializeCatalog [])) = some default_catalog ∧
    default_catalog ≠ ([] : List Achievement) := by
  refine ⟨rfl, ?_, by decide⟩
  rfl

/-- Claim C3 as amended: the save/load round trip reproduces every field of
every record exactly for catalogs of 1 up to 50 records whose text fields
are nonempty, fit their struct arrays (31/63/127 characters), and avoid
both the `'|'` delimiter and newlines, provided the serialized document
fits the 4096-byte I/O buffers (at most 4095 characters). -/
theorem save_load_roundtrip (cat : List Achievement) (h1 : cat ≠ [])
    (h2 : cat.length ≤ 50) (h3 : ∀ a ∈ cat, GoodAch a)
    (h4 : (serializeCatalog cat).length ≤ 4095) :
    save_engine_data cat = some (serializeCatalog cat) ∧
    load_engine_data (some (serializeCatalog cat)) = some cat := by
  constructor
  · simp [save_engine_data, h4]
  · have hne : (serializeCatalog cat).isEmpty = false := rfl
    have htk : (serializeCatalog cat).take 4095 = serializeCatalog cat :=
      List.take_of_length_le h4
    have hcne : cat.isEmpty = false := by
      cases cat with
      | nil => exact absurd rfl h1
      | cons a as => rfl
    simp only [load_engine_data, hne, Bool.false_eq_true, if_false, htk]
    rw [splitLines_serializeCatalog h3]
    simp only [parseLoop, if_pos (by norm_num : (0 : Nat) < 50),
      if_neg (by decide : ¬headerL.take 4 = "ACH:".toList)]
    rw [parseLoop_map 0 (by omega) h3]
    simp [hcne]

/-- Witness for the amended C3 round trip at a concrete one-record
catalog. -/
theorem save_load_roundtrip_witness :
    save_engine_data [bootAch1] = some (serializeCatalog [bootAch1]) ∧
    load_engine_data (some (serializeCatalog [bootAch1])) = some [bootAch1] :=
  save_load_roundtrip [bootAch1] (by decide) (by decide)
    (by intro a ha; simp at ha; subst ha; unfold GoodAch GoodText; decide) (by decide)

/-! ## Claim C7 -/

/-- Claim C7 counterexample: a malformed record line that still carries the
`"ACH:"` tag is not skipped — it consumes a catalog slot, partially parsed
(here only the id is assigned; the other fields keep the zeroed slot
values), so the file below loads three records, not two. -/
theorem malformed_ach_line_consumes_slot :
    load_engine_data (some c7file) =
      some [⟨"alpha", "Alpha", "First one", 1, 2, 0, 0⟩,
            ⟨"badline", "", "", 0, 0, 0, 0⟩,
            ⟨"beta", "Beta", "Second one", 3, 4, 0, 0⟩] := by
  rfl

/-- Claim C7 as amended: a malformed line is skipped (leaving the records
before and after it intact) exactly when it does not begin with the
`"ACH:"` tag; a tagged line always consumes one catalog slot however
malformed its remainder.  Independently, a load never yields more than the
`MAX_ACHIEVEMENTS = 50` record cap. -/
theorem malformed_line_handling :
    (∀ (bad : List Char), ¬bad.take 4 = "ACH:".toList →
      ∀ (ls1 ls2 : List (List Char)) (n : Nat),
        parseLoop (ls1 ++ bad :: ls2) n = parseLoop (ls1 ++ ls2) n) ∧
    (∀ (file : List Char) (cat : List Achievement),
      load_engine_data (some file) = some cat → cat.length ≤ 50) :=
  ⟨parseLoop_skip, load_length_le⟩

/-- Witness for the amended C7 theorem: a concrete junk line between two
record lines does not change the parse, and a concrete load obeys the
cap. -/
theorem malformed_line_handling_witness :
    parseLoop (["ACH:a|b|c|1|2|0|0".toList] ++ "junk".toList :: ["ACH:d|e|f|3|4|0|0".toList]) 0 =
      parseLoop (["ACH:a|b|c|1|2|0|0".toList] ++ ["ACH:d|e|f|3|4|0|0".toList]) 0 ∧
    default_catalog.length ≤ 50 :=
  ⟨malformed_line_handling.1 "junk".toList (by decide) _ _ 0,
   malformed_line_handling.2 "x".toList default_catalog rfl⟩

/-! ## Lemmas: the notification ring buffer refines a bounded FIFO list -/

theorem absQ_length (q : QueueState) : (absQ q).length = q.count := by
  simp [absQ]

theorem Inv_emptyQ : Inv emptyQ := by
  refine ⟨by decide, rfl, by decide⟩

theorem queue_push_full {q : QueueState} (n : Notification) (h : ¬q.count < 99) :
    queue_push n q = (q, false) := by
  simp [queue_push, h]

theorem queue_push_ok {q : QueueState} (hInv : Inv q) (n : Notification)
    (h : q.count < 99) :
    Inv (queue_push n q).1 ∧ absQ (queue_push n q).1 = absQ q ++ [n] ∧
      (queue_push n q).2 = true := by
  obtain ⟨hh, ht, hc⟩ := hInv
  refine ⟨⟨?_, ?_, ?_⟩, ?_, ?_⟩
  · simpa [queue_push, h] using hh
  · simp only [queue_push, h, if_true, ht]
    omega
  · simp [queue_push, h]
    omega
  · simp only [queue_push, h, if_true, absQ]
    rw [List.range_succ, List.map_append]
    congr 1
    · apply List.map_congr_left
      intro i hi
      have hi' : i < q.count := List.mem_range.mp hi
      have hne : (q.head + i) % 100 ≠ q.tail := by
        rw [ht]
        omega
      simp [hne]
    · simp [ht]
  · simp [queue_push, h]

theorem queue_pop_empty {q : QueueState} (hInv : Inv q) (h : q.count = 0) :
    queue_pop q = (q, none) := by
  obtain ⟨hh, ht, _⟩ := hInv
  have : q.head = q.tail := by
    rw [ht, h]
    omega
  simp [queue_pop, this]

theorem absQ_shape {q : QueueState} (hh : q.head < 100) {m : Nat}
    (hc : q.count = m + 1) :
    absQ q = q.buf q.head ::
      (List.range m).map (fun i => q.buf ((q.head + (i + 1)) % 100)) := by
  unfold absQ
  rw [hc, List.range_succ_eq_map, List.map_cons, List.map_map]
  congr 1
  · rw [Nat.add_zero, Nat.mod_eq_of_lt hh]

theorem queue_pop_ok {q : QueueState} (hInv : Inv q) (h : q.count ≠ 0) :
    Inv (queue_pop q).1 ∧ absQ (queue_pop q).1 = (absQ q).tail ∧
      (queue_pop q).2 = (absQ q).head? ∧ (queue_pop q).1.count = q.count - 1 := by
  obtain ⟨hh, ht, hc⟩ := hInv
  have hne : q.head ≠ q.tail := by
    rw [ht]
    omega
  obtain ⟨m, hm⟩ : ∃ m, q.count = m + 1 := ⟨q.count - 1, by omega⟩
  have hshape := absQ_shape hh hm
  have habs : absQ (queue_pop q).1 =
      (List.range m).map (fun i => q.buf (((q.head + 1) % 100 + i) % 100)) := by
    simp only [queue_pop, if_neg hne, absQ, hm, Nat.add_sub_cancel]
  refine ⟨⟨?_, ?_, ?_⟩, ?_, ?_, ?_⟩
  · simp only [queue_pop, if_neg hne]
    exact Nat.mod_lt _ (by norm_num)
  · simp only [queue_pop, if_neg hne]
    rw [ht]
    omega
  · simp only [queue_pop, if_neg hne]
    omega
  · rw [habs, hshape, List.tail_cons]
    apply List.map_congr_left
    intro i _
    rw [Nat.mod_add_mod]
    congr 1
    omega
  · simp only [queue_pop, if_neg hne, hshape, List.head?_cons]
  · simp [queue_pop, hne]

theorem runQ_refines : ∀ (ops : List QOp) (q : QueueState) (l : List Notification),
    Inv q → absQ q = l →
    Inv (runQ ops q).1 ∧ absQ (runQ ops q).1 = (runSpec ops l).1 ∧
      (runQ ops q).2 = (runSpec ops l).2 := by
  intro ops
  induction ops with
  | nil =>
    intro q l hI hA
    exact ⟨hI, by simpa [runQ, runSpec] using hA, by simp [runQ, runSpec]⟩
  | cons op ops ih =>
    intro q l hI hA
    have hlen : l.length = q.count := by rw [← hA, absQ_length]
    cases op with
    | push n =>
      by_cases h : q.count < 99
      · obtain ⟨hI', hA', _⟩ := queue_push_ok hI n h
        have hll : l.length < 99 := by omega
        have := ih (queue_push n q).1 (l ++ [n]) hI' (by rw [hA', hA])
        simpa [runQ, runSpec, specPush, hll] using this
      · have hfull := queue_push_full n h
        have hll : ¬l.length < 99 := by omega
        have := ih q l hI hA
        simpa [runQ, runSpec, specPush, hll, hfull] using this
    | pop =>
      by_cases h : q.count = 0
      · have hemp := queue_pop_empty hI h
        have hl : l = [] := by
          have : l.length = 0 := by omega
          exact List.eq_nil_of_length_eq_zero this
        subst hl
        have := ih q [] hI hA
        simpa [runQ, runSpec, hemp] using this
      · obtain ⟨hI', hA', hhd, hcnt⟩ := queue_pop_ok hI h
        have hlne : l ≠ [] := by
          intro hx
          subst hx
          simp at hlen
          omega
        obtain ⟨x, xs, rfl⟩ := List.exists_cons_of_ne_nil hlne
        cases hqp : queue_pop q with
        | mk q' popped =>
          rw [hqp] at hI' hA' hhd hcnt
          dsimp only at hI' hA' hhd hcnt
          have hx : popped = some x := by
            rw [hhd, hA]
            rfl
          subst hx
          have hA'' : absQ q' = xs := by
            rw [hA', hA]
            rfl
          obtain ⟨a1, a2, a3⟩ := ih q' xs hI' hA''
          simp only [runQ, hqp, runSpec]
          cases hrun : runQ ops q' with
          | mk q2 outq =>
            cases hspec : runSpec ops xs with
            | mk l2 out2 =>
              rw [hrun] at a1 a2 a3
              rw [hspec] at a2 a3
              dsimp only at a1 a2 a3 ⊢
              exact ⟨a1, a2, by simp [a3]⟩

theorem popAllAux_eq : ∀ (f : Nat) (q : QueueState), Inv q → q.count = f →
    popAllAux f q = absQ q := by
  intro f
  induction f with
  | zero =>
    intro q hI hc
    simp [popAllAux, absQ, hc]
  | succ m ih =>
    intro q hI hc
    obtain ⟨hI', hA', hhd, hcnt⟩ := queue_pop_ok hI (by omega)
    have hshape := absQ_shape hI.1 hc
    cases hqp : queue_pop q with
    | mk q' popped =>
      rw [hqp] at hI' hA' hhd hcnt
      dsimp only at hI' hA' hhd hcnt
      have hx : popped = some (q.buf q.head) := by
        rw [hhd, hshape]
        rfl
      subst hx
      simp only [popAllAux, hqp]
      rw [ih q' hI' (by omega), hA', hshape]
      rfl

theorem popAll_eq_absQ {q : QueueState} (hInv : Inv q) : popAll q = absQ q :=
  popAllAux_eq q.count q hInv rfl

theorem runSpec_pushes : ∀ (ns : List Notification) (l : List Notification),
    l.length ≤ 99 → (runSpec (ns.map QOp.push) l).1 = (l ++ ns).take 99 := by
  intro ns
  induction ns with
  | nil =>
    intro l hl
    simp [runSpec, List.take_of_length_le hl]
  | cons n ns ih =>
    intro l hl
    by_cases h : l.length < 99
    · have := ih (l ++ [n]) (by simp; omega)
      simp only [List.map_cons, runSpec, specPush, h, if_true, this]
      rw [List.append_assoc]
      rfl
    · have h99 : l.length = 99 := by omega
      have := ih l hl
      simp only [List.map_cons, runSpec, specPush, h, if_false, this]
      rw [show (99 : Nat) = l.length from h99.symm, List.take_left, List.take_left]

/-! ## Lemmas: configuration reload -/

theorem load_config_stays_true (f : Option (List Char)) :
    load_config f true = true := by
  cases f with
  | none => rfl
  | some s => simp [load_config]

/-! ## Claim C5 -/

/-- Claim C5 (confirmed): over every push/pop sequence started from the
empty queue, the count stays within [0, 100] (indeed never exceeds 99, the
producer guard keeping one slot free), the ring buffer refines the FIFO
list model — every pop removes and returns the oldest remaining
notification, so notifications come out in push order — and popping an
empty queue returns no item and changes no queue field. -/
theorem queue_fifo_invariants (ops : List QOp) :
    (runQ ops emptyQ).1.count ≤ 100 ∧
    absQ (runQ ops emptyQ).1 = (runSpec ops []).1 ∧
    (runQ ops emptyQ).2 = (runSpec ops []).2 ∧
    ((runQ ops emptyQ).1.count = 0 →
      queue_pop (runQ ops emptyQ).1 = ((runQ ops emptyQ).1, none)) := by
  obtain ⟨hI, hA, hO⟩ := runQ_refines ops emptyQ [] Inv_emptyQ rfl
  exact ⟨by have := hI.2.2; omega, hA, hO, fun h0 => queue_pop_empty hI h0⟩

/-- Witness for C5 at a concrete push-then-pop sequence whose final count
is zero. -/
theorem queue_fifo_invariants_witness :
    queue_pop (runQ [QOp.push ⟨"a", "system", 0, 1⟩, QOp.pop] emptyQ).1 =
      ((runQ [QOp.push ⟨"a", "system", 0, 1⟩, QOp.pop] emptyQ).1, none) :=
  (queue_fifo_invariants [QOp.push ⟨"a", "system", 0, 1⟩, QOp.pop]).2.2.2 rfl

/-! ## Claim C4 -/

set_option maxRecDepth 8000 in
/-- Claim C4 counterexample: the producer guard is
`count < MAX_NOTIFICATIONS - 1`, so after pushing 101 notifications into
the empty queue only 99 are retained — not the 100 the claim asserts — and
already the 100th push (not only the 101st) is rejected. -/
theorem queue_caps_at_99 :
    (runQ pushOps101 emptyQ).1.count = 99 ∧
    (queue_push ⟨"next", "system", 0, 1⟩ (runQ pushOps101 emptyQ).1).2 = false := by
  exact ⟨rfl, rfl⟩

/-- Claim C4 as amended: pushing 101 notifications into the empty queue
retains exactly 99 — the first 99 pushed, none overwritten — every further
push is rejected, and draining the queue returns exactly those first 99 in
push order (in particular never a rejected notification). -/
theorem push_101_retains_99 (ns : List Notification) (h : ns.length = 101) :
    (runQ (ns.map QOp.push) emptyQ).1.count = 99 ∧
    absQ (runQ (ns.map QOp.push) emptyQ).1 = ns.take 99 ∧
    (∀ n, (queue_push n (runQ (ns.map QOp.push) emptyQ).1).2 = false) ∧
    popAll (runQ (ns.map QOp.push) emptyQ).1 = ns.take 99 := by
  obtain ⟨hI, hA, hO⟩ := runQ_refines (ns.map QOp.push) emptyQ [] Inv_emptyQ rfl
  have hspec : (runSpec (ns.map QOp.push) []).1 = ns.take 99 := by
    have := runSpec_pushes ns [] (by simp)
    simpa using this
  have habs : absQ (runQ (ns.map QOp.push) emptyQ).1 = ns.take 99 := by
    rw [hA, hspec]
  have hcnt : (runQ (ns.map QOp.push) emptyQ).1.count = 99 := by
    rw [← absQ_length, habs, List.length_take]
    omega
  refine ⟨hcnt, habs, ?_, ?_⟩
  · intro n
    have hfull : ¬(runQ (ns.map QOp.push) emptyQ).1.count < 99 := by omega
    rw [queue_push_full n hfull]
  · rw [popAll_eq_absQ hI, habs]

/-- Witness for the amended C4 theorem at the concrete 101 notifications of
`ns101`. -/
theorem push_101_retains_99_witness :
    (runQ (ns101.map QOp.push) emptyQ).1.count = 99 :=
  (push_101_retains_99 ns101 (by simp [ns101])).1

/-! ## Claim C8 -/

/-- Claim C8 (confirmed): `load_config` only ever assigns `enabled = 1`;
re-reading any configuration content (including content that omits or
negates the setting, or a missing file) either sets the flag to true or
leaves it unchanged, and once the engine has started enabled, no sequence
of reloads ever brings the flag back to false. -/
theorem config_reload_never_disables :
    (∀ files : List (Option (List Char)), config_reload_loop files true = true) ∧
    (∀ (f : Option (List Char)) (e : Bool),
      load_config f e = true ∨ load_config f e = e) := by
  constructor
  · intro files
    induction files with
    | nil => rfl
    | cons f fs ih =>
      show config_reload_loop fs (load_config f true) = true
      rw [load_config_stays_true f]
      exact ih
  · intro f e
    cases f with
    | none => exact Or.inr rfl
    | some s =>
      by_cases h : (splitLines s).any (fun l => hasSub "SWEETENGINE=true".toList l)
      · exact Or.inl (by simp only [load_config, if_pos h])
      · exact Or.inr (by simp only [load_config, if_neg h])

/-! ## Claim C9 -/

/-- Claim C9 (confirmed): when the dispatcher finds a queued notification
and IPC delivery fails (consumer unreachable), the notification is still
removed — the count drops by exactly one and the queue now holds exactly
the remaining notifications, so the popped one is never requeued — the
failure is reported (the connect-failure diagnostic), the catalog is
untouched, and the queue invariant is preserved so the dispatcher can keep
ticking. -/
theorem dispatch_failure_drops (s : EngState) (now : Int) (hInv : Inv s.queue)
    (hne : s.queue.count ≠ 0) :
    (stepOp (.dispatchTick false none now) s).1.queue.count = s.queue.count - 1 ∧
    absQ (stepOp (.dispatchTick false none now) s).1.queue = (absQ s.queue).tail ∧
    Inv (stepOp (.dispatchTick false none now) s).1.queue ∧
    (stepOp (.dispatchTick false none now) s).1.achievements = s.achievements ∧
    (stepOp (.dispatchTick false none now) s).2 =
      [.stderrLine "SweetEngine: Failed to connect to NotifEngine"] := by
  obtain ⟨hI', hA', hhd, hcnt⟩ := queue_pop_ok hInv hne
  obtain ⟨m, hm⟩ : ∃ m, s.queue.count = m + 1 := ⟨s.queue.count - 1, by omega⟩
  have hshape := absQ_shape hInv.1 hm
  cases hqp : queue_pop s.queue with
  | mk q' popped =>
    rw [hqp] at hI' hA' hhd hcnt
    dsimp only at hI' hA' hhd hcnt
    have hx : popped = some (s.queue.buf s.queue.head) := by
      rw [hhd, hshape]
      rfl
    subst hx
    simp only [stepOp, hqp]
    refine ⟨hcnt, hA', hI', ?_, ?_⟩
    · trivial
    · simp [sendEffects]

/-- Witness for C9 at the concrete one-element queue `qW`. -/
theorem dispatch_failure_drops_witness :
    (stepOp (.dispatchTick false none 7) s9).1.queue.count = s9.queue.count - 1 ∧
    (stepOp (.dispatchTick false none 7) s9).2 =
      [.stderrLine "SweetEngine: Failed to connect to NotifEngine"] :=
  ⟨(dispatch_failure_drops s9 7 ⟨by decide, by decide, by decide⟩ (by decide)).1,
   (dispatch_failure_drops s9 7 ⟨by decide, by decide, by decide⟩ (by decide)).2.2.2.2⟩

/-! ## Lemmas: the unlock state machine -/

theorem unlockList_cons_skip {a : Achievement} {id : String} {now : Int} {up : Bool}
    (h : ¬(a.id = id ∧ a.unlocked = 0)) (rest : List Achievement) :
    unlockList id now up (a :: rest) =
      (a :: (unlockList id now up rest).1, (unlockList id now up rest).2) := by
  cases hr : unlockList id now up rest with
  | mk r e => simp only [unlockList, if_neg h, hr]

theorem unlockList_skip (id : String) (now : Int) (up : Bool) :
    ∀ cat : List Achievement, (∀ a ∈ cat, a.id = id → a.unlocked ≠ 0) →
      unlockList id now up cat = (cat, []) := by
  intro cat
  induction cat with
  | nil => intro _; rfl
  | cons a rest ih =>
    intro h
    have hcond : ¬(a.id = id ∧ a.unlocked = 0) := by
      rintro ⟨h1, h2⟩
      exact h a (by simp) h1 h2
    rw [unlockList_cons_skip hcond, ih (fun b hb => h b (by simp [hb]))]

theorem unlockList_pt (id : String) (now : Int) (up : Bool) :
    ∀ cat : List Achievement, PtStep now cat (unlockList id now up cat).1 := by
  intro cat
  induction cat with
  | nil => intro j; exact Or.inl rfl
  | cons a rest ih =>
    intro j
    by_cases hcond : a.id = id ∧ a.unlocked = 0
    · cases j with
      | zero =>
        right
        refine ⟨a, by simp, hcond.2, ?_⟩
        simp [unlockList, hcond]
      | succ k =>
        left
        simp [unlockList, hcond]
    · rw [unlockList_cons_skip hcond]
      cases j with
      | zero => left; simp
      | succ k =>
        rcases ih k with hs | ⟨b, hb1, hb2, hb3⟩
        · left
          simpa using hs
        · right
          exact ⟨b, by simpa using hb1, hb2, by simpa using hb3⟩

theorem unlockList_length (id : String) (now : Int) (up : Bool) :
    ∀ cat : List Achievement, (unlockList id now up cat).1.length = cat.length := by
  intro cat
  induction cat with
  | nil => rfl
  | cons a rest ih =>
    by_cases hcond : a.id = id ∧ a.unlocked = 0
    · simp [unlockList, hcond]
    · rw [unlockList_cons_skip hcond]
      simp [ih]

theorem unlockList_mem (id : String) (now : Int) (up : Bool) :
    ∀ cat : List Achievement, ∀ b ∈ (unlockList id now up cat).1,
      b ∈ cat ∨ ∃ a ∈ cat, a.id = id ∧ a.unlocked = 0 ∧
        b = { a with unlocked := 1, unlock_time := now } := by
  intro cat
  induction cat with
  | nil => intro b hb; exact absurd hb (by simp [unlockList])
  | cons a rest ih =>
    intro b hb
    by_cases hcond : a.id = id ∧ a.unlocked = 0
    · simp only [unlockList, if_pos hcond] at hb
      rcases List.mem_cons.mp hb with rfl | hb'
      · exact Or.inr ⟨a, by simp, hcond.1, hcond.2, rfl⟩
      · exact Or.inl (by simp [hb'])
    · rw [unlockList_cons_skip hcond] at hb
      rcases List.mem_cons.mp hb with rfl | hb'
      · exact Or.inl (by simp)
      · rcases ih b hb' with h | ⟨c, hc1, hc2, hc3, hc4⟩
        · exact Or.inl (by simp [h])
        · exact Or.inr ⟨c, by simp [hc1], hc2, hc3, hc4⟩

theorem PtStep_trans {now : Int} {c1 c2 c3 : List Achievement}
    (h12 : PtStep now c1 c2) (h23 : PtStep now c2 c3) : PtStep now c1 c3 := by
  intro j
  rcases h23 j with h3 | ⟨b, hb1, hb2, hb3⟩
  · rcases h12 j with h2 | ⟨a, ha1, ha2, ha3⟩
    · exact Or.inl (h3.trans h2)
    · exact Or.inr ⟨a, ha1, ha2, h3.trans ha3⟩
  · rcases h12 j with h2 | ⟨a, ha1, ha2, ha3⟩
    · exact Or.inr ⟨b, h2 ▸ hb1, hb2, hb3⟩
    · rw [ha3] at hb1
      cases hb1
      simp at hb2
  
theorem checkLoopAux_reduce_unlock {id : String} {counter now : Int} {up : Bool}
    {fuel i : Nat} {cat : List Achievement} {a : Achievement}
    (hg : cat[i]? = some a) (hc : a.id = id ∧ counter ≥ a.target ∧ a.unlocked = 0) :
    checkLoopAux id counter now up (fuel + 1) i cat =
      ((checkLoopAux id counter now up fuel (i + 1) (unlockList id now up cat).1).1,
       (unlockList id now up cat).2 ++
         (checkLoopAux id counter now up fuel (i + 1) (unlockList id now up cat).1).2) := by
  cases h1 : unlockList id now up cat with
  | mk c1 e1 =>
    cases h2 : checkLoopAux id counter now up fuel (i + 1) c1 with
    | mk c2 e2 => simp only [checkLoopAux, hg, if_pos hc, h1, h2]

theorem checkLoopAux_reduce_skip {id : String} {counter now : Int} {up : Bool}
    {fuel i : Nat} {cat : List Achievement} {a : Achievement}
    (hg : cat[i]? = some a) (hc : ¬(a.id = id ∧ counter ≥ a.target ∧ a.unlocked = 0)) :
    checkLoopAux id counter now up (fuel + 1) i cat =
      checkLoopAux id counter now up fuel (i + 1) cat := by
  simp only [checkLoopAux, hg, if_neg hc]

theorem checkLoopAux_pt (id : String) (counter now : Int) (up : Bool) :
    ∀ (fuel i : Nat) (cat : List Achievement),
      PtStep now cat (checkLoopAux id counter now up fuel i cat).1 := by
  intro fuel
  induction fuel with
  | zero => intro i cat j; exact Or.inl rfl
  | succ f ih =>
    intro i cat
    cases hg : cat[i]? with
    | none => simp only [checkLoopAux, hg]; intro j; exact Or.inl rfl
    | some a =>
      by_cases hc : a.id = id ∧ counter ≥ a.target ∧ a.unlocked = 0
      · rw [checkLoopAux_reduce_unlock hg hc]
        exact PtStep_trans (unlockList_pt id now up cat) (ih (i + 1) _)
      · rw [checkLoopAux_reduce_skip hg hc]
        exact ih (i + 1) cat

theorem checkLoopAux_mem (id : String) (counter now : Int) (up : Bool) :
    ∀ (fuel i : Nat) (cat : List Achievement),
      ∀ b ∈ (checkLoopAux id counter now up fuel i cat).1,
        b ∈ cat ∨ ∃ a ∈ cat, a.id = id ∧ a.unlocked = 0 ∧
          b = { a with unlocked := 1, unlock_time := now } := by
  intro fuel
  induction fuel with
  | zero => intro i cat b hb; exact Or.inl hb
  | succ f ih =>
    intro i cat b hb
    cases hg : cat[i]? with
    | none =>
      rw [show checkLoopAux id counter now up (f + 1) i cat = (cat, []) from by
        simp only [checkLoopAux, hg]] at hb
      exact Or.inl hb
    | some a =>
      by_cases hc : a.id = id ∧ counter ≥ a.target ∧ a.unlocked = 0
      · rw [checkLoopAux_reduce_unlock hg hc] at hb
        rcases ih (i + 1) (unlockList id now up cat).1 b hb with h | ⟨c, hc1, hc2, hc3, hc4⟩
        · rcases unlockList_mem id now up cat b h with h' | ⟨c, hc1, hc2, hc3, hc4⟩
          · exact Or.inl h'
          · exact Or.inr ⟨c, hc1, hc2, hc3, hc4⟩
        · rcases unlockList_mem id now up cat c hc1 with h' | ⟨d, hd1, hd2, hd3, hd4⟩
          · exact Or.inr ⟨c, h', hc2, hc3, hc4⟩
          · rw [hd4] at hc3
            simp at hc3
      · rw [checkLoopAux_reduce_skip hg hc] at hb
        exact ih (i + 1) cat b hb

theorem checkLoopAux_no_trigger (id : String) (counter now : Int) (up : Bool) :
    ∀ (fuel i : Nat) (cat : List Achievement),
      (∀ b ∈ cat, ¬(b.id = id ∧ counter ≥ b.target ∧ b.unlocked = 0)) →
      checkLoopAux id counter now up fuel i cat = (cat, []) := by
  intro fuel
  induction fuel with
  | zero => intro i cat _; rfl
  | succ f ih =>
    intro i cat h
    cases hg : cat[i]? with
    | none => simp only [checkLoopAux, hg]
    | some a =>
      have ha : a ∈ cat := List.getElem?_mem hg
      rw [checkLoopAux_reduce_skip hg (h a ha)]
      exact ih (i + 1) cat h

theorem checkLoop_pt (id : String) (counter now : Int) (up : Bool)
    (cat : List Achievement) : PtStep now cat (checkLoop id counter now up cat).1 :=
  checkLoopAux_pt id counter now up cat.length 0 cat

theorem check_progress_reduce (now : Int) (up : Bool) (s : EngState) :
    check_achievement_progress now up s =
      ({ s with
          boot_count := s.boot_count + 1
          achievements :=
            (checkLoop "wayland_pro" s.wayland_events now up
              (checkLoop "boot_master" (s.boot_count + 1) now up s.achievements).1).1 },
       (checkLoop "boot_master" (s.boot_count + 1) now up s.achievements).2 ++
         (checkLoop "wayland_pro" s.wayland_events now up
           (checkLoop "boot_master" (s.boot_count + 1) now up s.achievements).1).2) := by
  cases h1 : checkLoop "boot_master" (s.boot_count + 1) now up s.achievements with
  | mk c1 e1 =>
    cases h2 : checkLoop "wayland_pro" s.wayland_events now up c1 with
    | mk c2 e2 => simp only [check_achievement_progress, h1, h2]

theorem stepOp_pt (op : SysOp) (s : EngState) :
    PtStep (opTime op) s.achievements (stepOp op s).1.achievements := by
  cases op with
  | evalTick now up =>
    have h := check_progress_reduce now up s
    show PtStep now s.achievements (check_achievement_progress now up s).1.achievements
    rw [h]
    exact PtStep_trans (checkLoop_pt _ _ now up _) (checkLoop_pt _ _ now up _)
  | dispatchTick up amb now =>
    show PtStep now s.achievements (stepOp (.dispatchTick up amb now) s).1.achievements
    have : (stepOp (.dispatchTick up amb now) s).1.achievements = s.achievements := by
      cases hqp : queue_pop s.queue with
      | mk q popped => simp only [stepOp, hqp]
    rw [this]
    intro j
    exact Or.inl rfl
  | listenerStep r now =>
    have : (stepOp (.listenerStep r now) s).1.achievements = s.achievements := by
      simp only [stepOp]
      by_cases h : (s.event_count + r) % 50 = 0 <;> simp [h]
    rw [show opTime (.listenerStep r now) = now from rfl, this]
    intro j
    exact Or.inl rfl
  | unlockCall id now up =>
    have : (stepOp (.unlockCall id now up) s).1.achievements =
        (unlockList id now up s.achievements).1 := by
      cases hu : unlockList id now up s.achievements with
      | mk c e => simp only [stepOp, hu]
    rw [show opTime (.unlockCall id now up) = now from rfl, this]
    exact unlockList_pt id now up s.achievements

theorem stepOp_preserves_unlocked {op : SysOp} {s : EngState} {i : Nat}
    {a : Achievement} (hg : s.achievements[i]? = some a) (hu : a.unlocked ≠ 0) :
    (stepOp op s).1.achievements[i]? = some a := by
  rcases stepOp_pt op s i with h | ⟨b, hb1, hb2, hb3⟩
  · rw [h, hg]
  · rw [hg] at hb1
    cases hb1
    exact absurd hb2 hu

theorem unlockedAt_mono (op : SysOp) (s : EngState) (i : Nat)
    (h : unlockedAt s i = true) : unlockedAt (stepOp op s).1 i = true := by
  unfold unlockedAt at h ⊢
  cases hg : s.achievements[i]? with
  | none => rw [hg] at h; simp at h
  | some a =>
    rw [hg] at h
    have hu : a.unlocked ≠ 0 := by simpa using h
    rw [stepOp_preserves_unlocked hg hu]
    simpa using h

theorem statesFrom_eq_cons : ∀ (ops : List SysOp) (s : EngState),
    ∃ tl, statesFrom s ops = s :: tl := by
  intro ops s
  cases ops with
  | nil => exact ⟨[], rfl⟩
  | cons op ops => exact ⟨_, rfl⟩

theorem statesFrom_chain (i : Nat) : ∀ (ops : List SysOp) (s : EngState),
    List.Chain' (fun x y => x = true → y = true)
      ((statesFrom s ops).map (fun t => unlockedAt t i)) := by
  intro ops
  induction ops with
  | nil => intro s; simp [statesFrom]
  | cons op ops ih =>
    intro s
    obtain ⟨tl, htl⟩ := statesFrom_eq_cons ops (stepOp op s).1
    have hch := ih (stepOp op s).1
    show List.Chain' _ ((s :: statesFrom (stepOp op s).1 ops).map (fun t => unlockedAt t i))
    rw [htl] at hch ⊢
    simp only [List.map_cons] at hch ⊢
    exact List.Chain'.cons (fun hx => unlockedAt_mono op s i hx) hch

theorem riseCount_head_true : ∀ l : List Bool,
    List.Chain' (fun x y => x = true → y = true) (true :: l) →
    riseCount (true :: l) = 0 := by
  intro l
  induction l with
  | nil => intro _; rfl
  | cons b t ih =>
    intro h
    have hb : b = true := (List.chain'_cons.mp h).1 rfl
    subst hb
    have ht := (List.chain'_cons.mp h).2
    simp [riseCount, ih ht]

theorem riseCount_le_one : ∀ l : List Bool,
    List.Chain' (fun x y => x = true → y = true) l → riseCount l ≤ 1 := by
  intro l
  induction l with
  | nil => intro _; simp [riseCount]
  | cons a t ih =>
    intro h
    cases t with
    | nil => simp [riseCount]
    | cons b t' =>
      cases a with
      | true => rw [riseCount_head_true _ h]; omega
      | false =>
        have htail := (List.chain'_cons.mp h).2
        cases b with
        | true =>
          have h0 := riseCount_head_true t' htail
          simp [riseCount, h0]
        | false =>
          have hrec := ih htail
          simpa [riseCount] using hrec

/-! ## Claim C1 -/

/-- Claim C1 (confirmed): for every achievement record (tracked by its
slot index) and every sequence of engine operations — evaluator ticks,
direct unlock attempts, listener and dispatcher steps — (1) an unlocked
record is never modified again, so `unlock_time` never changes once set;
(2) an unlock call on an id all of whose records are already unlocked
changes no state and emits no notification, no log line and no save;
(3) the only possible change to a locked record is the unlock transition
itself, which sets `unlocked` to 1 and stamps `unlock_time` with the
operation's time; and (4) along any operation trace the record's unlocked
bit makes at most one false-to-true transition. -/
theorem unlock_at_most_once (s : EngState) :
    (∀ (op : SysOp) (i : Nat) (a : Achievement),
      s.achievements[i]? = some a → a.unlocked ≠ 0 →
      (stepOp op s).1.achievements[i]? = some a) ∧
    (∀ (id : String) (now : Int) (up : Bool),
      (∀ a ∈ s.achievements, a.id = id → a.unlocked ≠ 0) →
      stepOp (.unlockCall id now up) s = (s, [])) ∧
    (∀ (op : SysOp) (i : Nat) (a b : Achievement),
      s.achievements[i]? = some a → (stepOp op s).1.achievements[i]? = some b →
      a.unlocked = 0 → b ≠ a →
      b = { a with unlocked := 1, unlock_time := opTime op }) ∧
    (∀ (ops : List SysOp) (i : Nat),
      riseCount ((statesFrom s ops).map (fun t => unlockedAt t i)) ≤ 1) := by
  refine ⟨?_, ?_, ?_, ?_⟩
  · intro op i a hg hu
    exact stepOp_preserves_unlocked hg hu
  · intro id now up h
    have hu := unlockList_skip id now up s.achievements h
    show (match unlockList id now up s.achievements with
      | (cat, es) => ({ s with achievements := cat }, es)) = (s, [])
    rw [hu]
  · intro op i a b hga hgb h0 hne
    rcases stepOp_pt op s i with h | ⟨c, hc1, hc2, hc3⟩
    · rw [hga] at h
      rw [h] at hgb
      cases hgb
      exact absurd rfl hne
    · rw [hga] at hc1
      cases hc1
      rw [hc3] at hgb
      cases hgb
      rfl
  · intro ops i
    exact riseCount_le_one _ (statesFrom_chain i ops s)

/-- Witness for C1: at a one-record state whose record is already
unlocked, an evaluator tick leaves the record untouched and a direct
unlock call is a complete no-op. -/
theorem unlock_at_most_once_witness :
    (stepOp (.evalTick 3 true) sW).1.achievements[0]? = some aW ∧
    stepOp (.unlockCall "x" 9 true) sW = (sW, []) :=
  ⟨(unlock_at_most_once sW).1 (.evalTick 3 true) 0 aW rfl (by decide),
   (unlock_at_most_once sW).2.1 "x" 9 true (by decide)⟩

/-! ## Claim C6 -/

theorem unlock_message_update (a : Achievement) (u t : Int) :
    unlock_message { a with unlocked := u, unlock_time := t } = unlock_message a := rfl

theorem unlockList_found (id : String) (now : Int) (up : Bool) :
    ∀ (pre : List Achievement) (a : Achievement) (post : List Achievement),
      (∀ b ∈ pre, ¬(b.id = id ∧ b.unlocked = 0)) → a.id = id → a.unlocked = 0 →
      unlockList id now up (pre ++ a :: post) =
        (pre ++ { a with unlocked := 1, unlock_time := now } :: post,
         sendEffects up (unlock_message a) "achievement" 5 now ++
           [.logLine "Achievement unlocked", .saveCall]) := by
  intro pre
  induction pre with
  | nil =>
    intro a post _ ha1 ha2
    rw [List.nil_append]
    have hcond : a.id = id ∧ a.unlocked = 0 := ⟨ha1, ha2⟩
    simp only [unlockList, if_pos hcond]
    rfl
  | cons p pre ih =>
    intro a post hpre ha1 ha2
    have hp : ¬(p.id = id ∧ p.unlocked = 0) := hpre p (by simp)
    rw [List.cons_append, unlockList_cons_skip hp,
      ih a post (fun b hb => hpre b (by simp [hb])) ha1 ha2]
    rfl

theorem getElem?_append_mid (pre post : List Achievement) (a : Achievement) :
    (pre ++ a :: post)[pre.length]? = some a := by
  rw [List.getElem?_append_right (le_refl _)]
  simp

theorem checkLoopAux_single (id : String) (counter now : Int) (up : Bool)
    (pre post : List Achievement) (a : Achievement)
    (hpre : ∀ b ∈ pre, b.id ≠ id) (hpost : ∀ b ∈ post, b.id ≠ id)
    (ha1 : a.id = id) (ha2 : a.unlocked = 0) (ha3 : counter ≥ a.target) :
    ∀ (fuel i : Nat), i ≤ pre.length → pre.length - i < fuel →
      checkLoopAux id counter now up fuel i (pre ++ a :: post) =
        (pre ++ { a with unlocked := 1, unlock_time := now } :: post,
         sendEffects up (unlock_message a) "achievement" 5 now ++
           [.logLine "Achievement unlocked", .saveCall]) := by
  intro fuel
  induction fuel with
  | zero => intro i _ h2; omega
  | succ f ih =>
    intro i h1 h2
    by_cases hi : i = pre.length
    · subst hi
      have hg := getElem?_append_mid pre post a
      have hcond : a.id = id ∧ counter ≥ a.target ∧ a.unlocked = 0 := ⟨ha1, ha3, ha2⟩
      rw [checkLoopAux_reduce_unlock hg hcond,
        unlockList_found id now up pre a post
          (fun b hb hc => hpre b hb hc.1) ha1 ha2]
      have hnt : ∀ b ∈ pre ++ { a with unlocked := 1, unlock_time := now } :: post,
          ¬(b.id = id ∧ counter ≥ b.target ∧ b.unlocked = 0) := by
        intro b hb
        rcases List.mem_append.mp hb with h | h
        · rintro ⟨hb1, _⟩
          exact hpre b h hb1
        · rcases List.mem_cons.mp h with rfl | h
          · rintro ⟨_, _, hbu⟩
            simp at hbu
          · rintro ⟨hb1, _⟩
            exact hpost b h hb1
      rw [checkLoopAux_no_trigger id counter now up f (pre.length + 1) _ hnt]
      simp
    · have hilt : i < pre.length := by omega
      obtain ⟨b, hb⟩ : ∃ b, pre[i]? = some b := ⟨pre[i], List.getElem?_eq_getElem hilt⟩
      have hbmem : b ∈ pre := List.getElem?_mem hb
      have hcond : ¬(b.id = id ∧ counter ≥ b.target ∧ b.unlocked = 0) := by
        rintro ⟨hx, _⟩
        exact hpre b hbmem hx
      have hg : (pre ++ a :: post)[i]? = some b := by
        rw [List.getElem?_append, if_pos hilt, hb]
      rw [checkLoopAux_reduce_skip hg hcond]
      exact ih (i + 1) (by omega) (by omega)

theorem checkLoop_mem (id : String) (counter now : Int) (up : Bool)
    (cat : List Achievement) :
    ∀ b ∈ (checkLoop id counter now up cat).1,
      b ∈ cat ∨ ∃ a ∈ cat, a.id = id ∧ a.unlocked = 0 ∧
        b = { a with unlocked := 1, unlock_time := now } :=
  checkLoopAux_mem id counter now up cat.length 0 cat

theorem checkLoop_no_trigger (id : String) (counter now : Int) (up : Bool)
    (cat : List Achievement)
    (h : ∀ b ∈ cat, ¬(b.id = id ∧ counter ≥ b.target ∧ b.unlocked = 0)) :
    checkLoop id counter now up cat = (cat, []) :=
  checkLoopAux_no_trigger id counter now up cat.length 0 cat h

set_option maxRecDepth 8000 in
/-- Claim C6 counterexample: at a concrete ready state (one boot-count
achievement at its target, empty queue, reachable consumer) the evaluator
tick does unlock the achievement — one IPC notification is sent directly,
one audit line appended, one save invoked — but nothing is ever put into
the notification queue: its count stays 0 instead of growing to 1 as the
claim asserts. -/
theorem unlock_does_not_enqueue :
    (stepOp (.evalTick 100 true) s6).1.achievements =
      [{ bootAch1 with unlocked := 1, unlock_time := 100 }] ∧
    (stepOp (.evalTick 100 true) s6).2 =
      [.ipc "achievement" (unlock_message bootAch1) 5 100,
       .logLine "Achievement unlocked", .saveCall] ∧
    (stepOp (.evalTick 100 true) s6).1.queue.count = 0 := by
  refine ⟨by decide, by decide, rfl⟩

/-- Claim C6 as amended: when the evaluator finds the not-yet-unlocked
boot-count achievement with its counter at target (and no other record
triggers), it performs exactly these effects: it stamps `unlock_time`,
sends ONE achievement-category notification describing the unlock directly
over the IPC client — the notification queue is bypassed, every queue
field is left unchanged — appends one audit log line, and invokes the
persistence save. -/
theorem unlock_effects (s : EngState) (pre post : List Achievement)
    (a : Achievement) (now : Int)
    (hcat : s.achievements = pre ++ a :: post)
    (ha1 : a.id = "boot_master") (ha2 : a.unlocked = 0)
    (ha3 : s.boot_count + 1 ≥ a.target)
    (hpre : ∀ b ∈ pre, b.id ≠ "boot_master")
    (hpost : ∀ b ∈ post, b.id ≠ "boot_master")
    (hway : ∀ b ∈ s.achievements, b.id = "wayland_pro" →
      ¬(s.wayland_events ≥ b.target ∧ b.unlocked = 0)) :
    stepOp (.evalTick now true) s =
      ({ s with
          boot_count := s.boot_count + 1
          achievements :=
            pre ++ { a with unlocked := 1, unlock_time := now } :: post },
       [.ipc "achievement" (unlock_message a) 5 now,
        .logLine "Achievement unlocked", .saveCall]) := by
  have hboot : checkLoop "boot_master" (s.boot_count + 1) now true s.achievements =
      (pre ++ { a with unlocked := 1, unlock_time := now } :: post,
       sendEffects true (unlock_message a) "achievement" 5 now ++
         [.logLine "Achievement unlocked", .saveCall]) := by
    rw [hcat]
    exact checkLoopAux_single "boot_master" (s.boot_count + 1) now true pre post a
      hpre hpost ha1 ha2 ha3 (pre ++ a :: post).length 0 (by omega)
      (by simp only [List.length_append, List.length_cons]; omega)
  have hway' : checkLoop "wayland_pro" s.wayland_events now true
      (pre ++ { a with unlocked := 1, unlock_time := now } :: post) =
      (pre ++ { a with unlocked := 1, unlock_time := now } :: post, []) := by
    apply checkLoop_no_trigger
    intro b hb
    rintro ⟨hb1, hb2, hb3⟩
    rcases List.mem_append.mp hb with h | h
    · exact hway b (by rw [hcat]; exact List.mem_append_left _ h) hb1 ⟨hb2, hb3⟩
    · rcases List.mem_cons.mp h with rfl | h
      · rw [show ({ a with unlocked := 1, unlock_time := now } : Achievement).id = a.id
          from rfl, ha1] at hb1
        exact absurd hb1 (by decide)
      · exact hway b (by rw [hcat]; exact List.mem_append_right _ (by simp [h])) hb1 ⟨hb2, hb3⟩
  show check_achievement_progress now true s = _
  rw [check_progress_reduce, hboot, hway']
  simp [sendEffects]

/-- Witness for the amended C6 theorem at the concrete state `s6`. -/
theorem unlock_effects_witness :
    stepOp (.evalTick 100 true) s6 =
      ({ s6 with
          boot_count := s6.boot_count + 1
          achievements := [] ++ { bootAch1 with unlocked := 1, unlock_time := 100 } :: [] },
       [.ipc "achievement" (unlock_message bootAch1) 5 100,
        .logLine "Achievement unlocked", .saveCall]) :=
  unlock_effects s6 [] [] bootAch1 100 rfl rfl rfl (by decide)
    (by intro b hb; simp at hb) (by intro b hb; simp at hb)
    (by intro b hb hbid; simp [s6, bootAch1] at hb; subst hb; simp [bootAch1] at hbid)

/-! ## Claim C10 -/

theorem step_preserves_wayland (op : SysOp) (s : EngState)
    (hnot : ∀ (now : Int) (up : Bool), op ≠ .unlockCall "wayland_pro" now up)
    (h0 : s.wayland_events = 0)
    (hlocked : ∀ a ∈ s.achievements, a.id = "wayland_pro" →
      0 < a.target ∧ a.unlocked = 0) :
    (stepOp op s).1.wayland_events = 0 ∧
    ∀ a ∈ (stepOp op s).1.achievements, a.id = "wayland_pro" →
      0 < a.target ∧ a.unlocked = 0 := by
  cases op with
  | evalTick now up =>
    have hcat1 : ∀ b ∈ (checkLoop "boot_master" (s.boot_count + 1) now up
        s.achievements).1, b.id = "wayland_pro" → 0 < b.target ∧ b.unlocked = 0 := by
      intro b hb hbid
      rcases checkLoop_mem "boot_master" (s.boot_count + 1) now up s.achievements b hb
        with hmem | ⟨c, hc1, hc2, hc3, hc4⟩
      · exact hlocked b hmem hbid
      · exfalso
        have : c.id = "wayland_pro" := by
          rw [← hbid, hc4]
        rw [hc2] at this
        exact absurd this (by decide)
    have hway : checkLoop "wayland_pro" s.wayland_events now up
        (checkLoop "boot_master" (s.boot_count + 1) now up s.achievements).1 =
        ((checkLoop "boot_master" (s.boot_count + 1) now up s.achievements).1, []) := by
      apply checkLoop_no_trigger
      intro b hb
      rintro ⟨hb1, hb2, hb3⟩
      obtain ⟨ht, _⟩ := hcat1 b hb hb1
      rw [h0] at hb2
      omega
    constructor
    · show (check_achievement_progress now up s).1.wayland_events = 0
      rw [check_progress_reduce]
      exact h0
    · show ∀ a ∈ (check_achievement_progress now up s).1.achievements, _
      rw [check_progress_reduce]
      intro b hb hbid
      rw [hway] at hb
      exact hcat1 b hb hbid
  | dispatchTick up amb now =>
    cases hqp : queue_pop s.queue with
    | mk q popped =>
      constructor
      · simp only [stepOp, hqp]
        exact h0
      · intro b hb hbid
        simp only [stepOp, hqp] at hb
        exact hlocked b hb hbid
  | listenerStep r now =>
    by_cases hm : (s.event_count + r) % 50 = 0
    · constructor
      · simp only [stepOp, if_pos hm]
        exact h0
      · intro b hb hbid
        simp only [stepOp, if_pos hm] at hb
        exact hlocked b hb hbid
    · constructor
      · simp only [stepOp, if_neg hm]
        exact h0
      · intro b hb hbid
        simp only [stepOp, if_neg hm] at hb
        exact hlocked b hb hbid
  | unlockCall id now up =>
    have hid : id ≠ "wayland_pro" := by
      intro hx
      subst hx
      exact hnot now up rfl
    cases hu : unlockList id now up s.achievements with
    | mk c e =>
      constructor
      · simp only [stepOp, hu]
        exact h0
      · intro b hb hbid
        simp only [stepOp, hu] at hb
        have hb' : b ∈ (unlockList id now up s.achievements).1 := by
          rw [hu]
          exact hb
        rcases unlockList_mem id now up s.achievements b hb' with hmem | ⟨d, hd1, hd2, hd3, hd4⟩
        · exact hlocked b hmem hbid
        · exfalso
          have : d.id = "wayland_pro" := by
            rw [← hbid, hd4]
          rw [hd2] at this
          exact hid this

/-- Claim C10 (confirmed): the counter the evaluator compares against
`wayland_pro`'s target is the static local `wayland_events`, which no
operation of the program ever increments (the event listener advances its
own separate `event_count`); hence over every operation sequence the
counter stays 0 and every `wayland_pro` record with a positive target
remains locked.  (Direct unlock calls for `"wayland_pro"` are excluded
from the trace because the program's only call site of
`unlock_achievement("wayland_pro")` is the evaluator check that
`wayland_events ≥ target`, which the `evalTick` operation already
models.) -/
theorem wayland_pro_stays_locked (ops : List SysOp) (s0 : EngState)
    (h0 : s0.wayland_events = 0)
    (hlocked : ∀ a ∈ s0.achievements, a.id = "wayland_pro" →
      0 < a.target ∧ a.unlocked = 0)
    (hops : ∀ (now : Int) (up : Bool), SysOp.unlockCall "wayland_pro" now up ∉ ops) :
    (runOps ops s0).wayland_events = 0 ∧
    ∀ a ∈ (runOps ops s0).achievements, a.id = "wayland_pro" →
      0 < a.target ∧ a.unlocked = 0 := by
  induction ops generalizing s0 with
  | nil => exact ⟨h0, hlocked⟩
  | cons op ops ih =>
    have hnot : ∀ (now : Int) (up : Bool), op ≠ .unlockCall "wayland_pro" now up := by
      intro now up hx
      exact hops now up (by rw [← hx]; simp)
    obtain ⟨h0', hlocked'⟩ := step_preserves_wayland op s0 hnot h0 hlocked
    have hops' : ∀ (now : Int) (up : Bool),
        SysOp.unlockCall "wayland_pro" now up ∉ ops := by
      intro now up hx
      exact hops now up (by simp [hx])
    exact ih (stepOp op s0).1 h0' hlocked' hops'

/-- Witness for C10: one evaluator tick from the freshly seeded default
catalog leaves `wayland_pro` locked. -/
theorem wayland_pro_stays_locked_witness :
    (runOps [SysOp.evalTick 5 true] ⟨default_catalog, 0, 0, emptyQ, 0⟩).wayland_events = 0 :=
  (wayland_pro_stays_locked [SysOp.evalTick 5 true] ⟨default_catalog, 0, 0, emptyQ, 0⟩
    rfl (by decide) (by intro now up hmem; simp at hmem)).1

end SweetExp
